import Mathlib

/-!
Shallow embedding of the retrieval, fusion, reranking and facet-hierarchy core
of `backend/main.py` (FAS hybrid search service), together with theorems that
check the specification's claims against it.

Modelling conventions:
* Python strings are `String`/`List Char`; lowercasing and the word-character
  class are implemented for ASCII plus the Russian alphabet, the repertoire of
  this corpus.
* Python numbers are exact rationals `ℚ`; the float specials NaN/±inf that
  `normalize_score` guards against are modelled by the tagged type `PyFloat`.
* Python dicts are association lists in insertion order (`dictSet` updates an
  existing key in place and appends a new one, as CPython dicts do).
* `sorted(..., reverse=True)` is the stable descending insertion sort
  `sortDescBy`; `sorted(...)` on strings is `sortAscStr` (code-point order).
-/

set_option maxHeartbeats 1000000

/-- Python `str.isspace` repertoire used by `str.strip()` (ASCII part). -/
def isPySpace (c : Char) : Bool :=
  c = ' ' || c = '\t' || c = '\n' || c = '\r' || c = '\x0b' || c = '\x0c'

/-- Python `str.lower` restricted to ASCII and the Russian alphabet. -/
def pyLowerChar (c : Char) : Char :=
  if 65 ≤ c.toNat && c.toNat ≤ 90 then Char.ofNat (c.toNat + 32)
  else if 0x410 ≤ c.toNat && c.toNat ≤ 0x42F then Char.ofNat (c.toNat + 32)
  else if c.toNat = 0x401 then 'ё'
  else c

def pyLowerL (s : List Char) : List Char := s.map pyLowerChar

/-- Python `str.strip()`. -/
def pyStripL (s : List Char) : List Char :=
  ((s.dropWhile isPySpace).reverse.dropWhile isPySpace).reverse

/-- Python substring test `needle in haystack`. -/
def containsSub (n : List Char) : List Char → Bool
  | [] => n.isEmpty
  | c :: t => n.isPrefixOf (c :: t) || containsSub n t

def digitsToNat (d : List Char) : Nat := d.foldl (fun a c => a * 10 + (c.toNat - 48)) 0

/-- Python `int(s)` on a short string: optional surrounding whitespace, an
optional sign, then decimal digits.  (CPython additionally accepts underscore
separators between digits; those never occur in the date prefixes parsed here.) -/
def pyInt (s : List Char) : Option Int :=
  match pyStripL s with
  | '-' :: d => if !d.isEmpty && d.all Char.isDigit then some (-(digitsToNat d : Int)) else none
  | '+' :: d => if !d.isEmpty && d.all Char.isDigit then some (digitsToNat d : Int) else none
  | d => if !d.isEmpty && d.all Char.isDigit then some (digitsToNat d : Int) else none

/-- Dict lookup with default (`dict.get(k, v0)`). -/
def dictGetD {α β : Type} [DecidableEq α] : List (α × β) → α → β → β
  | [], _, v0 => v0
  | (k1, v) :: t, k, v0 => if k1 = k then v else dictGetD t k v0

/-- Dict store `d[k] = v`: updates an existing key in place, appends a new one. -/
def dictSet {α β : Type} [DecidableEq α] : List (α × β) → α → β → List (α × β)
  | [], k, v => [(k, v)]
  | (k1, v1) :: t, k, v => if k1 = k then (k, v) :: t else (k1, v1) :: dictSet t k v

/-- Dict membership `k in d`. -/
def dictHas {α β : Type} [DecidableEq α] (d : List (α × β)) (k : α) : Bool :=
  d.any (fun p => decide (p.1 = k))

/-- One step of a stable descending insertion sort: the inserted element goes
before the first strictly smaller key, hence after all equal keys already
present (same equal-key order as Python's stable `sorted(..., reverse=True)`
applied to the original sequence). -/
def insDesc {α : Type} (key : α → ℚ) (x : α) : List α → List α
  | [] => [x]
  | y :: t => if key y ≤ key x then x :: y :: t else y :: insDesc key x t

/-- Stable descending sort by a rational key. -/
def sortDescBy {α : Type} (key : α → ℚ) : List α → List α
  | [] => []
  | x :: t => insDesc key x (sortDescBy key t)

/-- Python string `<` (code-point lexicographic). -/
def strLtB : List Char → List Char → Bool
  | [], [] => false
  | [], _ :: _ => true
  | _ :: _, [] => false
  | a :: as1, b :: bs1 =>
    if a.toNat < b.toNat then true
    else if b.toNat < a.toNat then false
    else strLtB as1 bs1

def insAscStr (x : String) : List String → List String
  | [] => [x]
  | y :: t => if strLtB x.data y.data then x :: y :: t else y :: insAscStr x t

/-- Python `sorted` on strings (all key sets sorted this way are duplicate-free). -/
def sortAscStr : List String → List String
  | [] => []
  | x :: t => insAscStr x (sortAscStr t)

/-- A Python float as far as the ranking core distinguishes values: NaN, a
signed infinity, or a finite value (kept exact as a rational). -/
inductive PyFloat : Type where
  | nan : PyFloat
  | inf : Bool → PyFloat
  | val : ℚ → PyFloat
deriving DecidableEq

/-- Embeds `normalize_score(score, min_val, max_val)` (main.py lines 124-134):
NaN/inf guard first, then clamping, then linear rescaling. -/
def normalize_score (min_val max_val : ℚ) : PyFloat → ℚ
  | .nan => 0
  | .inf _ => 0
  | .val x =>
    if x < min_val then 0
    else if max_val < x then 1
    else (x - min_val) / (max_val - min_val)

/-- Scan a string left to right, returning the first position where the
pattern matcher `f` succeeds — the semantics of `re.search`.  (The patterns
below contain no constructs needing backtracking: every `\d+`/`\s*` is
followed by a character outside its class, so maximal munch is exact.) -/
def searchScan {α : Type} (f : List Char → Option α) : List Char → Option α
  | [] => f []
  | c :: t =>
    match f (c :: t) with
    | some g => some g
    | none => searchScan f t

def skipSpacesL (s : List Char) : List Char := s.dropWhile isPySpace

/-- Try pattern `ст\s*(\d+)` at the head of the input; group 1 on success. -/
def tryPst (s : List Char) : Option (List Char) :=
  match s with
  | 'с' :: 'т' :: rest =>
    let d := (skipSpacesL rest).takeWhile Char.isDigit
    if d.isEmpty then none else some d
  | _ => none

/-- Try pattern `ч\s*(\d+)\s*ст\s*(\d+)` at the head of the input. -/
def tryPchst (s : List Char) : Option (List Char × List Char) :=
  match s with
  | 'ч' :: rest =>
    let r1 := skipSpacesL rest
    let d1 := r1.takeWhile Char.isDigit
    if d1.isEmpty then none
    else
      match tryPst (skipSpacesL (r1.dropWhile Char.isDigit)) with
      | some d2 => some (d1, d2)
      | none => none
  | _ => none

/-- Try pattern `п\s*(\d+)\s*ч\s*(\d+)\s*ст\s*(\d+)` at the head of the input. -/
def tryPpchst (s : List Char) : Option (List Char × List Char × List Char) :=
  match s with
  | 'п' :: rest =>
    let r1 := skipSpacesL rest
    let d1 := r1.takeWhile Char.isDigit
    if d1.isEmpty then none
    else
      match tryPchst (skipSpacesL (r1.dropWhile Char.isDigit)) with
      | some (d2, d3) => some (d1, d2, d3)
      | none => none
  | _ => none

/-- Python `s.replace('  ', ' ')`: non-overlapping left-to-right replacement. -/
def collapseDoubleSpace : List Char → List Char
  | ' ' :: ' ' :: t => ' ' :: collapseDoubleSpace t
  | c :: t => c :: collapseDoubleSpace t
  | [] => []

/-- Citation normalisation from `apply_filters`:
`art.lower().replace('.', ' ').replace('  ', ' ').strip()`. -/
def normCit (s : String) : List Char :=
  pyStripL (collapseDoubleSpace ((pyLowerL s.data).map (fun c => if c = '.' then ' ' else c)))

/-- The components `re.search` extracts from a normalised citation: statute
number, part number (`ч`), sub-point number (`п`), each kept as the matched
digit group (the code compares the groups as strings). -/
structure Cit : Type where
  st : Option (List Char)
  ch : Option (List Char)
  p : Option (List Char)
deriving DecidableEq

/-- The `п/ч/ст` extraction cascade of `apply_filters` (main.py lines 454-496):
try `п X ч Y ст Z`, then `ч Y ст Z`, then `ст Z`. -/
def extractCit (s : List Char) : Cit :=
  match searchScan tryPpchst s with
  | some (pn, chn, stn) => ⟨some stn, some chn, some pn⟩
  | none =>
    match searchScan tryPchst s with
    | some (chn, stn) => ⟨some stn, some chn, none⟩
    | none =>
      match searchScan tryPst s with
      | some stn => ⟨some stn, none, none⟩
      | none => ⟨none, none, none⟩

/-- The matching rule of `apply_filters` (main.py lines 503-521) on one
(filter citation, stored citation) pair of extracted components. -/
def citMatch (f prov : Cit) : Bool :=
  match f.st, prov.st with
  | some fs, some ps =>
    if fs = ps then
      match f.ch with
      | some fc =>
        match prov.ch with
        | some pc =>
          if fc = pc then
            match f.p with
            | some fp =>
              match prov.p with
              | some pp => fp = pp
              | none => false
            | none => true
          else false
        | none => false
      | none => true
    else false
  | _, _ => false

/-- The statute-filter loop: some filter citation matches some stored citation. -/
def statuteFound (arts provs : List String) : Bool :=
  arts.any (fun a => provs.any (fun pr => citMatch (extractCit (normCit a)) (extractCit (normCit pr))))

def jsonWs (c : Char) : Bool := c = ' ' || c = '\t' || c = '\n' || c = '\r'

/-- Body of a JSON string after the opening quote.  Escape sequences are
rejected (they never occur in the corpus' citation strings; rejection makes
the caller fall back to the whole raw string, as an exception would). -/
def parseStrBody : List Char → Option (List Char × List Char)
  | [] => none
  | '"' :: t => some ([], t)
  | '\\' :: _ => none
  | c :: t =>
    match parseStrBody t with
    | some (s, r) => some (c :: s, r)
    | none => none

/-- Comma-separated JSON strings up to the closing bracket (fuelled). -/
def parseJsonItems : Nat → List Char → Option (List (List Char) × List Char)
  | 0, _ => none
  | fuel + 1, s =>
    match s.dropWhile jsonWs with
    | '"' :: t =>
      match parseStrBody t with
      | some (str, r) =>
        match r.dropWhile jsonWs with
        | ',' :: r2 =>
          match parseJsonItems fuel r2 with
          | some (items, rest) => some (str :: items, rest)
          | none => none
        | ']' :: r2 => some ([str], r2)
        | _ => none
      | none => none
    | _ => none

/-- `json.loads` restricted to arrays of plain strings, the shape of the
`legal_provisions` payload; anything else fails (→ the caller's fallback). -/
def pyJsonLoadsStrList (s : List Char) : Option (List String) :=
  match s.dropWhile jsonWs with
  | '[' :: t =>
    match t.dropWhile jsonWs with
    | ']' :: r => if (r.dropWhile jsonWs).isEmpty then some [] else none
    | _ =>
      match parseJsonItems (t.length + 1) t with
      | some (items, rest) =>
        if (rest.dropWhile jsonWs).isEmpty then some (items.map (fun l => String.mk l)) else none
      | none => none
  | _ => none

/-- `apply_filters`' provision decoding (main.py lines 427-439): replace
apostrophes by double quotes, try JSON, else keep the raw string whole.
(The corpus stores `legal_provisions` as a string — `keyword_search` and
`get_filter_options` treat it as text — so the `isinstance(..., list)` branch
is never exercised and is not modelled.) -/
def parseProvisions (raw : String) : List String :=
  match pyJsonLoadsStrList (raw.data.map (fun c => if c.toNat = 39 then '"' else c)) with
  | some l => l
  | none => [raw]

/-- The case fields read by the ranking core.  Other corpus fields are carried
along in responses but never inspected by the code under verification. -/
structure Case : Type where
  document_date : Option String := none
  FAS_division : Option String := none
  defendant_industry : Option String := none
  legal_provisions : Option String := none
  violation_summary : Option String := none
  ad_description : Option String := none
  FAS_arguments : Option String := none
  ad_content_cited : Option String := none
deriving DecidableEq

def emptyCase : Case := {}

/-- Python truthiness of an optional string (`None` and `""` are falsy). -/
def truthyStr : Option String → Bool
  | none => false
  | some s => !s.isEmpty

/-- The filter dict of the search endpoint.  The endpoint only inserts a key
when the request value is a non-empty list, so an empty list models both an
absent key and a falsy value (both skip the corresponding check). -/
structure Filters : Type where
  year : List Int := []
  region : List String := []
  industry : List String := []
  article : List String := []

def filtersEmpty (f : Filters) : Bool :=
  f.year.isEmpty && f.region.isEmpty && f.industry.isEmpty && f.article.isEmpty

/-- The per-case body of the `apply_filters` loop: `true` iff the case
survives every active constraint (a `continue` in the source is a `false`
conjunct here).  `expand` stands for `expand_filter_categories` from the
`industry_mapping` module, which is not part of this repository's sources;
every theorem below holds for an arbitrary expansion. -/
def casePasses (expand : List String → List String) (f : Filters) (c : Case) : Bool :=
  (if f.year.isEmpty then true
   else
     truthyStr c.document_date &&
       match pyInt ((c.document_date.getD "").data.take 4) with
       | some y => f.year.contains y
       | none => false)
  &&
  (if f.region.isEmpty then true
   else truthyStr c.FAS_division && f.region.contains (c.FAS_division.getD ""))
  &&
  (if f.industry.isEmpty then true
   else truthyStr c.defendant_industry && (expand f.industry).contains (c.defendant_industry.getD ""))
  &&
  (if f.article.isEmpty then true
   else truthyStr c.legal_provisions && statuteFound f.article (parseProvisions (c.legal_provisions.getD "")))

/-- Embeds `apply_filters(candidates, filters)` (main.py lines 393-535).
Candidate case indices are resolved with a default (Python would raise on an
out-of-range index; all call sites produce in-range indices). -/
def apply_filters (corpus : List Case) (expand : List String → List String) (f : Filters)
    (candidates : List (Nat × ℚ)) : List (Nat × ℚ) :=
  if filtersEmpty f || corpus.isEmpty then candidates
  else candidates.filter (fun p => casePasses expand f (corpus.getD p.1 emptyCase))

/-- Python `\w` (word character) restricted to ASCII and the Russian alphabet. -/
def isWordChar (c : Char) : Bool :=
  c.isAlphanum || c = '_' ||
    (0x430 ≤ c.toNat && c.toNat ≤ 0x44F) || (0x410 ≤ c.toNat && c.toNat ≤ 0x42F) ||
    c.toNat = 0x451 || c.toNat = 0x401

/-- Accumulator pass for `re.findall(r'\b\w+\b', s)`: `acc` is the current
word-character run, reversed. -/
def wordRunsGo : List Char → List Char → List (List Char)
  | acc, [] => if acc.isEmpty then [] else [acc.reverse]
  | acc, c :: t =>
    if isWordChar c then wordRunsGo (c :: acc) t
    else if acc.isEmpty then wordRunsGo [] t else acc.reverse :: wordRunsGo [] t

/-- `re.findall(r'\b\w+\b', s)`: the maximal runs of word characters. -/
def wordRuns (s : List Char) : List (List Char) := wordRunsGo [] s

/-- Fuelled duplicate removal (fuel bounds the recursion; the initial fuel is
the list length, which the filtered tail never exceeds). -/
def dedupFirstGo : Nat → List (List Char) → List (List Char)
  | 0, _ => []
  | _ + 1, [] => []
  | fuel + 1, x :: t => x :: dedupFirstGo fuel (t.filter (fun y => !(y == x)))

/-- `set(...)` of the word runs: duplicates removed.  A set's iteration order
is irrelevant here because scores only count tokens. -/
def dedupFirst (l : List (List Char)) : List (List Char) := dedupFirstGo l.length l

/-- The fixed searchable fields of `keyword_search`, with `case.get(f,'') or ''`. -/
def SEARCH_FIELDS (c : Case) : List String :=
  [c.violation_summary.getD "", c.ad_description.getD "", c.FAS_arguments.getD "",
   c.ad_content_cited.getD "", c.legal_provisions.getD ""]

/-- Per-field keyword score: +10 if the whole lowercased query is a substring,
+1 per distinct query token longer than 3 characters that is a substring. -/
def keywordFieldScore (ql : List Char) (tokens : List (List Char)) (textLower : List Char) : ℚ :=
  (if containsSub ql textLower then 10 else 0)
  + ((tokens.filter (fun w => decide (3 < w.length) && containsSub w textLower)).length : ℚ)

/-- The per-case score of `keyword_search` (main.py lines 550-561). -/
def keywordCaseScore (ql : List Char) (tokens : List (List Char)) (c : Case) : ℚ :=
  ((SEARCH_FIELDS c).map (fun f => keywordFieldScore ql tokens (pyLowerL f.data))).sum

/-- The `(idx, score)` pairs with positive score, in corpus order
(`for idx, case in enumerate(cases)` plus the `if score > 0` append). -/
def scoredList (ql : List Char) (tokens : List (List Char)) : Nat → List Case → List (Nat × ℚ)
  | _, [] => []
  | i, c :: t =>
    if 0 < keywordCaseScore ql tokens c then
      (i, keywordCaseScore ql tokens c) :: scoredList ql tokens (i + 1) t
    else scoredList ql tokens (i + 1) t

/-- Embeds `keyword_search(query, top_k)` (main.py lines 538-567). -/
def keyword_search (corpus : List Case) (query : String) (top_k : Nat) : List (Nat × ℚ) :=
  if corpus.isEmpty then []
  else
    let ql := pyLowerL query.data
    let tokens := dedupFirst (wordRuns ql)
    (sortDescBy Prod.snd (scoredList ql tokens 0 corpus)).take top_k

/-- The per-case keyword score as a function of the raw query string. -/
def keywordScoreOf (query : String) (c : Case) : ℚ :=
  keywordCaseScore (pyLowerL query.data) (dedupFirst (wordRuns (pyLowerL query.data))) c

/-- The lexical score as the claim literally words it (for comparison with the
code): 10 × (1 if the full lowercased query appears in ANY searchable field,
else 0), plus 1 per distinct long token per field containing it. -/
def keywordScoreClaimed (query : String) (c : Case) : ℚ :=
  (if (SEARCH_FIELDS c).any (fun f => containsSub (pyLowerL query.data) (pyLowerL f.data)) then 10 else 0)
  + ((SEARCH_FIELDS c).map (fun f =>
      (((dedupFirst (wordRuns (pyLowerL query.data))).filter
          (fun w => decide (3 < w.length) && containsSub w (pyLowerL f.data))).length : ℚ))).sum

/-- The lexical score as the amended claim words it: for EACH searchable field,
10 if the full lowercased query appears in it plus 1 per distinct long token
appearing in it, summed over the fields. -/
def keywordScoreAmended (query : String) (c : Case) : ℚ :=
  ((SEARCH_FIELDS c).map (fun f =>
      (if containsSub (pyLowerL query.data) (pyLowerL f.data) then (10 : ℚ) else 0)
      + (((dedupFirst (wordRuns (pyLowerL query.data))).filter
            (fun w => decide (3 < w.length) && containsSub w (pyLowerL f.data))).length : ℚ))).sum

def isZeroVec (q : List ℚ) : Bool := q.all (fun x => decide (x = 0))

def dotQ (a b : List ℚ) : ℚ := (List.zipWith (fun x y => x * y) a b).sum

/-- Embeds `semantic_search(query_embedding, top_k)` (main.py lines 570-588).
`qNorm` stands for the float `np.linalg.norm(query_embedding)`, whose exact
value is irrational in general; the `norm == 0` test is equivalent to the
vector being identically zero.  `np.argsort`'s order on tied similarities is
unspecified (quicksort); index order is chosen here. -/
def semantic_search (tbl : Option (List (List ℚ))) (q : List ℚ) (qNorm : ℚ) (top_k : Nat) :
    List (Nat × ℚ) :=
  match tbl with
  | none => []
  | some es =>
    if isZeroVec q then []
    else
      (sortDescBy Prod.snd ((es.map (fun e => dotQ e (q.map (fun x => x / qNorm)))).enum)).take top_k

def SEARCH_TOP_CANDIDATES : Nat := 100

/-- One accumulation step of the fusion dict:
`combined_scores[idx] = combined_scores.get(idx, 0) + score * w`. -/
def fuseStep (w : ℚ) (d : List (Nat × ℚ)) (p : Nat × ℚ) : List (Nat × ℚ) :=
  dictSet d p.1 (dictGetD d p.1 0 + p.2 * w)

/-- The fusion dict after the semantic pass (weight 0.7). -/
def semContrib (sem : List (Nat × ℚ)) : List (Nat × ℚ) :=
  sem.foldl (fuseStep (7 / 10)) []

/-- The fusion dict after both passes (main.py lines 739-744). -/
def fuseDict (sem lex : List (Nat × ℚ)) : List (Nat × ℚ) :=
  lex.foldl (fuseStep (3 / 10)) (semContrib sem)

/-- Embeds the fusion of the search endpoint (main.py lines 739-746):
`sorted(combined_scores.items(), key=score, reverse=True)[:SEARCH_TOP_CANDIDATES]`. -/
def fuse (sem lex : List (Nat × ℚ)) : List (Nat × ℚ) :=
  (sortDescBy Prod.snd (fuseDict sem lex)).take SEARCH_TOP_CANDIDATES

/-- The candidate pool built by the search endpoint before filtering
(main.py lines 733-746): semantic search capped at `SEARCH_TOP_CANDIDATES`,
keyword search explicitly capped at 50, then fusion. -/
def search_candidate_pool (corpus : List Case) (tbl : Option (List (List ℚ))) (q : List ℚ)
    (qNorm : ℚ) (query : String) : List (Nat × ℚ) :=
  fuse (semantic_search tbl q qNorm SEARCH_TOP_CANDIDATES) (keyword_search corpus query 50)

/-- One rerank result row (the `case` payload and raw-score bookkeeping fields
of the source dict are carried along unchanged and are omitted here). -/
structure RerankResult : Type where
  index : Nat
  score : ℚ
  field_scores : List (String × ℚ)
deriving DecidableEq

def FIELD_WEIGHTS : List (String × ℚ) := [("violation_summary", 6 / 10), ("ad_description", 4 / 10)]

/-- A per-case entry of a rerank-field vector table: whether the stored vector
is identically zero (`np.any`), and otherwise the cosine similarity of the
normalised query and stored vectors — a float computed through square roots,
taken as data here since its exact value is irrational in general. -/
structure FieldEntry : Type where
  zeroVec : Bool
  rawSim : PyFloat
deriving DecidableEq

/-- Per-field score of the rerank normal path (main.py lines 654-675). -/
def fieldScoreOf (tbl : Option (List FieldEntry)) (idx : Nat) : ℚ :=
  match tbl with
  | some t =>
    if idx < t.length then
      let e := t.getD idx ⟨true, PyFloat.val 0⟩
      if e.zeroVec then 0 else normalize_score (-1) 1 e.rawSim
    else 0
  | none => 0

/-- `max(score for _, score in candidates)` (callers guarantee nonemptiness). -/
def listMaxQ : List ℚ → ℚ
  | [] => 0
  | x :: t => t.foldl max x

/-- Embeds `rerank_with_field_embeddings(candidates, query_embedding,
use_keyword_scores)` (main.py lines 591-694). -/
def rerank_with_field_embeddings (corpus : List Case) (tblViol tblAd : Option (List FieldEntry))
    (query_embedding : List ℚ) (candidates : List (Nat × ℚ)) (use_keyword_scores : Bool) :
    List RerankResult :=
  if corpus.isEmpty then []
  else
    let is_zero := isZeroVec query_embedding
    if is_zero && use_keyword_scores then
      if candidates.isEmpty then []
      else
        let m0 := listMaxQ (candidates.map Prod.snd)
        let m := if m0 = 0 then 1 else m0
        sortDescBy (fun r => r.score)
          (candidates.map (fun p => ⟨p.1, p.2 / m, [("keyword", p.2 / m)]⟩))
    else if is_zero then
      sortDescBy (fun r => r.score) (candidates.map (fun p => ⟨p.1, 0, []⟩))
    else
      sortDescBy (fun r => r.score)
        (candidates.map (fun p =>
          let fs : List (String × ℚ) :=
            [("violation_summary", fieldScoreOf tblViol p.1), ("ad_description", fieldScoreOf tblAd p.1)]
          let weighted_sum := (fs.map (fun kv => dictGetD FIELD_WEIGHTS kv.1 0 * kv.2)).sum
          let max_weight_sum := (FIELD_WEIGHTS.map Prod.snd).sum
          ⟨p.1, normalize_score 0 max_weight_sum (PyFloat.val weighted_sum), fs⟩))

def zerosQ (d : Nat) : List ℚ := List.replicate d 0

/-- The outcome of the one external embedding call inside `get_embedding`:
either a vector or an exception (quota, network, region). -/
inductive EmbedOutcome : Type where
  | ok : List ℚ → EmbedOutcome
  | failed : String → EmbedOutcome

/-- Embeds `get_embedding` (main.py lines 137-164): empty/blank text yields a
zero vector without calling out; an exception is caught and becomes `none`. -/
def get_embedding (text : String) (dim : Nat) (outcome : EmbedOutcome) : Option (List ℚ) :=
  if (pyStripL text.data).isEmpty then some (zerosQ dim)
  else
    match outcome with
    | .ok v => some v
    | .failed _ => none

/-- Embeds the query-embedding step of the search endpoint (main.py lines
719-730): returns the query vector used for this request and the value of the
global `use_gemini` flag after the request. -/
def searchEmbedStep (use_gemini : Bool) (dim : Nat) (text : String) (outcome : EmbedOutcome) :
    List ℚ × Bool :=
  if use_gemini then
    match get_embedding text dim outcome with
    | none => (zerosQ dim, false)
    | some v => (v, true)
  else (zerosQ dim, false)

/-- A third-level node of the industry tree (always a leaf as built). -/
structure SpecialtyNode : Type where
  name : String
  count : Nat
deriving DecidableEq

/-- A second-level node of the industry tree (`SubIndustry` in the source;
the pydantic model is recursive but the builder nests at most this deep). -/
structure SubIndustryNode : Type where
  name : String
  count : Nat
  sub_industries : List SpecialtyNode
deriving DecidableEq

/-- A top-level node of the industry tree (`IndustryGroup` in the source). -/
structure IndustryGroupNode : Type where
  name : String
  count : Nat
  sub_industries : List SubIndustryNode
deriving DecidableEq

/-- Split on the slash character (`industry.split('/')`); `acc` is the
current piece, reversed. -/
def splitSlashGo : List Char → List Char → List (List Char)
  | acc, [] => [acc.reverse]
  | acc, c :: t => if c = '/' then acc.reverse :: splitSlashGo [] t else splitSlashGo (c :: acc) t

/-- `[s.strip() for s in industry.split('/')]`. -/
def pySplitTrim (s : String) : List String :=
  (splitSlashGo [] s.data).map (fun p => String.mk (pyStripL p))

/-- The `industry_counts` pass of `build_industry_hierarchy` (lines 789-793):
one increment per occurrence in the iterated collection. -/
def industryCounts (industries : List String) : List (String × Nat) :=
  industries.foldl
    (fun d ind => if ind.isEmpty then d else dictSet d ind (dictGetD d ind 0 + 1)) []

/-- The `all_industries` nested-dict pass (lines 795-822) for one value. -/
def addIndustry (d : List (String × List (String × List (String × Nat)))) (ind : String) :
    List (String × List (String × List (String × Nat))) :=
  if ind.isEmpty then d
  else
    match pySplitTrim ind with
    | [] => d
    | [main] => if dictHas d main then d else dictSet d main []
    | [main, sub] =>
      let d1 := if dictHas d main then d else dictSet d main []
      let subs1 := dictGetD d1 main []
      if dictHas subs1 sub then d1 else dictSet d1 main (dictSet subs1 sub [])
    | main :: sub :: subsub :: _ =>
      let d1 := if dictHas d main then d else dictSet d main []
      let subs1 := dictGetD d1 main []
      let d2 := if dictHas subs1 sub then d1 else dictSet d1 main (dictSet subs1 sub [])
      if subsub.isEmpty then d2
      else
        let subs2 := dictGetD d2 main []
        let leafd := dictGetD subs2 sub []
        dictSet d2 main (dictSet subs2 sub (dictSet leafd subsub (dictGetD leafd subsub 0 + 1)))

/-- Embeds `build_industry_hierarchy(industries)` (main.py lines 783-865).
The Python parameter is annotated `set`; the function only iterates its
argument, so it is embedded over the iterated sequence (a list), which is
also what the claim's multiset of raw values calls for. -/
def build_industry_hierarchy (industries : List String) : List IndustryGroupNode :=
  let counts := industryCounts industries
  let tree := industries.foldl addIndustry []
  (sortAscStr (tree.map Prod.fst)).map (fun main =>
    let subs := dictGetD tree main []
    let subList := (sortAscStr (subs.map Prod.fst)).map (fun subName =>
      let subData := dictGetD subs subName []
      let subCount := (subData.map Prod.snd).sum + dictGetD counts (main ++ " / " ++ subName) 0
      SubIndustryNode.mk subName subCount
        ((sortAscStr (subData.map Prod.fst)).map
          (fun ss => SpecialtyNode.mk ss (dictGetD subData ss 0))))
    IndustryGroupNode.mk main ((subList.map (fun s => s.count)).sum + dictGetD counts main 0) subList)

-- ### Helper lemmas about the dict and sort models

theorem dictGetD_dictSet_self {α β : Type} [DecidableEq α] (d : List (α × β)) (k : α) (v v0 : β) :
    dictGetD (dictSet d k v) k v0 = v := by
  induction d with
  | nil => simp [dictSet, dictGetD]
  | cons h t ih =>
    obtain ⟨k1, v1⟩ := h
    by_cases hk : k1 = k
    · simp [dictSet, hk, dictGetD]
    · simp [dictSet, hk, dictGetD, ih]

theorem dictGetD_dictSet_ne {α β : Type} [DecidableEq α] (d : List (α × β)) (k k2 : α) (v : β)
    (v0 : β) (h : k ≠ k2) : dictGetD (dictSet d k v) k2 v0 = dictGetD d k2 v0 := by
  induction d with
  | nil => simp [dictSet, dictGetD, h]
  | cons hd t ih =>
    obtain ⟨k1, v1⟩ := hd
    by_cases hk : k1 = k
    · subst hk
      simp [dictSet, dictGetD, h]
    · simp [dictSet, hk, dictGetD, ih]

theorem fuseFold_notin (w : ℚ) (l : List (Nat × ℚ)) (d : List (Nat × ℚ)) (idx : Nat)
    (h : idx ∉ l.map Prod.fst) :
    dictGetD (l.foldl (fuseStep w) d) idx 0 = dictGetD d idx 0 := by
  induction l generalizing d with
  | nil => rfl
  | cons p t ih =>
    simp only [List.map_cons, List.mem_cons] at h
    push_neg at h
    simp only [List.foldl_cons]
    rw [ih _ h.2, fuseStep, dictGetD_dictSet_ne _ _ _ _ _ (fun hh => h.1 hh.symm)]

theorem fuseFold_value (w : ℚ) (l : List (Nat × ℚ)) (d : List (Nat × ℚ)) (idx : Nat)
    (hnd : (l.map Prod.fst).Nodup) :
    dictGetD (l.foldl (fuseStep w) d) idx 0 =
      dictGetD d idx 0 + (if idx ∈ l.map Prod.fst then dictGetD l idx 0 * w else 0) := by
  induction l generalizing d with
  | nil => simp [dictGetD]
  | cons p t ih =>
    simp only [List.map_cons, List.nodup_cons] at hnd
    simp only [List.foldl_cons, List.map_cons, List.mem_cons]
    by_cases hidx : idx = p.1
    · subst hidx
      rw [fuseFold_notin _ _ _ _ hnd.1]
      simp only [fuseStep, dictGetD_dictSet_self]
      simp [dictGetD]
    · rw [ih _ hnd.2]
      simp only [fuseStep, dictGetD_dictSet_ne _ _ _ _ _ (fun hh => hidx hh.symm)]
      have : ¬ (idx = p.1 ∨ idx ∈ t.map Prod.fst) ↔ ¬ (idx ∈ t.map Prod.fst) := by
        constructor
        · intro hn hm; exact hn (Or.inr hm)
        · intro hn hm; rcases hm with hm | hm
          · exact hidx hm
          · exact hn hm
      by_cases hmem : idx ∈ t.map Prod.fst
      · simp [hmem, hidx, dictGetD, Ne.symm hidx]
      · simp [hmem, hidx, dictGetD, Ne.symm hidx]

theorem insDesc_perm {α : Type} (key : α → ℚ) (x : α) (l : List α) :
    (insDesc key x l).Perm (x :: l) := by
  induction l with
  | nil => exact List.Perm.refl _
  | cons y t ih =>
    by_cases h : key y ≤ key x
    · simp [insDesc, h]
    · simp only [insDesc, h, if_false]
      exact (ih.cons y).trans (List.Perm.swap x y t)

theorem sortDescBy_perm {α : Type} (key : α → ℚ) (l : List α) :
    (sortDescBy key l).Perm l := by
  induction l with
  | nil => exact List.Perm.refl _
  | cons x t ih =>
    exact (insDesc_perm key x (sortDescBy key t)).trans (ih.cons x)

theorem insDesc_pairwise {α : Type} (key : α → ℚ) (x : α) {l : List α}
    (hl : l.Pairwise (fun a b => key b ≤ key a)) :
    (insDesc key x l).Pairwise (fun a b => key b ≤ key a) := by
  induction hl with
  | nil => simp [insDesc]
  | @cons y t hy ht ih =>
    by_cases h : key y ≤ key x
    · simp only [insDesc, h, if_true]
      refine List.Pairwise.cons ?_ (List.Pairwise.cons hy ht)
      intro z hz
      rcases List.mem_cons.mp hz with rfl | hz2
      · exact h
      · exact le_trans (hy z hz2) h
    · simp only [insDesc, h, if_false]
      refine List.Pairwise.cons ?_ ih
      intro z hz
      rcases List.mem_cons.mp ((insDesc_perm key x t).mem_iff.mp hz) with rfl | hz2
      · exact le_of_lt (lt_of_not_le h)
      · exact hy z hz2

theorem sortDescBy_pairwise {α : Type} (key : α → ℚ) (l : List α) :
    (sortDescBy key l).Pairwise (fun a b => key b ≤ key a) := by
  induction l with
  | nil => simp [sortDescBy]
  | cons x t ih => exact insDesc_pairwise key x ih

theorem sublist_insDesc {α : Type} (key : α → ℚ) (x : α) (l : List α) :
    l.Sublist (insDesc key x l) := by
  induction l with
  | nil => simp [insDesc]
  | cons y t ih =>
    by_cases h : key y ≤ key x
    · simp [insDesc, h]
    · simp only [insDesc, h, if_false]
      exact ih.cons₂ y

theorem cons_mem_insDesc {α : Type} (key : α → ℚ) (x y : α) (l : List α)
    (hk : key y ≤ key x) (hy : y ∈ l) : List.Sublist [x, y] (insDesc key x l) := by
  induction l with
  | nil => cases hy
  | cons z t ih =>
    by_cases h : key z ≤ key x
    · simp only [insDesc, h, if_true]
      exact (List.singleton_sublist.mpr hy).cons₂ x
    · simp only [insDesc, h, if_false]
      rcases List.mem_cons.mp hy with rfl | hy2
      · exact absurd hk (fun hc => h hc)
      · exact (ih hy2).cons z

theorem sortDescBy_stable {α : Type} (key : α → ℚ) (a b : α) (hk : key a = key b) :
    ∀ l : List α, List.Sublist [a, b] l → List.Sublist [a, b] (sortDescBy key l) := by
  intro l
  induction l with
  | nil => intro h; cases h
  | cons c t ih =>
    intro h
    cases h with
    | cons _ h2 =>
      exact (ih h2).trans (sublist_insDesc key c (sortDescBy key t))
    | cons₂ _ h2 =>
      have hb : b ∈ sortDescBy key t :=
        (sortDescBy_perm key t).mem_iff.mpr (List.singleton_sublist.mp h2)
      exact cons_mem_insDesc key a b _ (le_of_eq hk.symm) hb

theorem sortDescBy_const {α : Type} (key : α → ℚ) (v : ℚ) (l : List α)
    (h : ∀ x ∈ l, key x = v) : sortDescBy key l = l := by
  induction l with
  | nil => rfl
  | cons x t ih =>
    have ht : ∀ y ∈ t, key y = v := fun y hy => h y (List.mem_cons_of_mem x hy)
    rw [sortDescBy, ih ht]
    cases t with
    | nil => rfl
    | cons y t2 =>
      have hle : key y ≤ key x := by
        rw [h y (by simp), h x (by simp)]
      simp [insDesc, hle]

theorem listMaxQ_mem (l : List ℚ) (h : l ≠ []) : listMaxQ l ∈ l := by
  have aux : ∀ (t : List ℚ) (x : ℚ), t.foldl max x = x ∨ t.foldl max x ∈ t := by
    intro t
    induction t with
    | nil => intro x; exact Or.inl rfl
    | cons y t2 ih =>
      intro x
      simp only [List.foldl_cons]
      rcases ih (max x y) with h1 | h1
      · rcases max_choice x y with h2 | h2
        · exact Or.inl (by rw [h1, h2])
        · refine Or.inr ?_
          rw [h1, h2]
          exact List.mem_cons_self y t2
      · exact Or.inr (List.mem_cons_of_mem y h1)
  cases l with
  | nil => exact absurd rfl h
  | cons x t =>
    simp only [listMaxQ]
    rcases aux t x with h1 | h1
    · rw [h1]; exact List.mem_cons_self x t
    · exact List.mem_cons_of_mem x h1

-- ### Helper lemmas about citation extraction and matching

theorem extractCit_shape (s : List Char) :
    ((extractCit s).ch = none → (extractCit s).p = none)
    ∧ ((extractCit s).st = none → (extractCit s).ch = none) := by
  unfold extractCit
  rcases h1 : searchScan tryPpchst s with _ | ⟨pn, chn, stn⟩
  · rcases h2 : searchScan tryPchst s with _ | ⟨chn, stn⟩
    · rcases h3 : searchScan tryPst s with _ | stn
      · simp
      · simp
    · simp
  · simp

theorem citMatch_st_none (f p : Cit) (h : f.st = none) : citMatch f p = false := by
  obtain ⟨fst1, fch, fp⟩ := f
  obtain ⟨pst, pch, pp⟩ := p
  simp only at h
  subst h
  cases pst <;> simp [citMatch]

theorem citMatch_iff (f p : Cit) (hf : f.ch = none → f.p = none) :
    citMatch f p = true ↔
      ((∃ n, f.st = some n ∧ p.st = some n)
       ∧ (∀ c, f.ch = some c → p.ch = some c)
       ∧ (∀ q, f.p = some q → p.p = some q)) := by
  obtain ⟨fst1, fch, fp⟩ := f
  obtain ⟨pst, pch, pp⟩ := p
  simp only at hf ⊢
  cases fst1 with
  | none => simp [citMatch]
  | some fs =>
    cases pst with
    | none => simp [citMatch]
    | some ps =>
      by_cases hst : fs = ps
      · subst hst
        cases fch with
        | none =>
          have hfp : fp = none := hf rfl
          subst hfp
          simp [citMatch]
        | some fc =>
          cases pch with
          | none => simp [citMatch]
          | some pc =>
            by_cases hch : fc = pc
            · subst hch
              cases fp with
              | none => simp [citMatch]
              | some fq =>
                cases pp with
                | none => simp [citMatch]
                | some pq =>
                  by_cases hq : fq = pq
                  · subst hq; simp [citMatch]
                  · simp [citMatch, hq]
                    exact fun hh => hq hh.symm
            · simp [citMatch, hch]
              intro h2
              exact absurd h2 (fun hh => hch hh.symm)
      · simp [citMatch, hst]
        intro h2
        exact fun _ => absurd h2 (fun hh => hst hh.symm)

theorem statuteFound_iff (arts provs : List String) :
    statuteFound arts provs = true ↔
      ∃ a ∈ arts, ∃ pr ∈ provs,
        citMatch (extractCit (normCit a)) (extractCit (normCit pr)) = true := by
  simp [statuteFound, List.any_eq_true]

-- ### Helper lemmas about keyword scoring and misc functions

theorem keywordScoreAmended_eq (q : String) (c : Case) :
    keywordScoreAmended q c = keywordScoreOf q c := rfl

theorem scoredList_mem (ql : List Char) (tokens : List (List Char)) :
    ∀ (l : List Case) (i : Nat) (p : Nat × ℚ), p ∈ scoredList ql tokens i l →
      ∃ j, j < l.length ∧ p.1 = i + j
        ∧ p.2 = keywordCaseScore ql tokens (l.getD j emptyCase) ∧ 0 < p.2 := by
  intro l
  induction l with
  | nil => intro i p h; simp [scoredList] at h
  | cons c t ih =>
    intro i p h
    simp only [scoredList] at h
    by_cases hs : 0 < keywordCaseScore ql tokens c
    · rw [if_pos hs] at h
      rcases List.mem_cons.mp h with rfl | h2
      · exact ⟨0, by simp, by simp, by simp, hs⟩
      · rcases ih (i + 1) p h2 with ⟨j, hj, hp1, hp2, hp3⟩
        refine ⟨j + 1, by simp; omega, by omega, ?_, hp3⟩
        simpa using hp2
    · rw [if_neg hs] at h
      rcases ih (i + 1) p h with ⟨j, hj, hp1, hp2, hp3⟩
      refine ⟨j + 1, by simp; omega, by omega, ?_, hp3⟩
      simpa using hp2

theorem isZeroVec_zerosQ (d : Nat) : isZeroVec (zerosQ d) = true := by
  simp only [isZeroVec, zerosQ, List.all_eq_true]
  intro x hx
  simp [List.eq_of_mem_replicate hx]

-- ### Claim theorems

/-- C6: every value returned by the reranker's rescaling lies in [0, 1];
values below the lower bound clamp to 0, values above the upper bound clamp
to 1, NaN/±infinity inputs resolve to 0, and the boundary inputs -1, 0, 1 map
to 0, 1/2, 1. -/
theorem c6_normalize_score_range (s : PyFloat) :
    (0 ≤ normalize_score (-1) 1 s ∧ normalize_score (-1) 1 s ≤ 1)
    ∧ normalize_score (-1) 1 PyFloat.nan = 0
    ∧ (∀ b : Bool, normalize_score (-1) 1 (PyFloat.inf b) = 0)
    ∧ (∀ x : ℚ, x < -1 → normalize_score (-1) 1 (PyFloat.val x) = 0)
    ∧ (∀ x : ℚ, 1 < x → normalize_score (-1) 1 (PyFloat.val x) = 1)
    ∧ normalize_score (-1) 1 (PyFloat.val (-1)) = 0
    ∧ normalize_score (-1) 1 (PyFloat.val 0) = 1 / 2
    ∧ normalize_score (-1) 1 (PyFloat.val 1) = 1 := by
  refine ⟨?_, rfl, fun b => rfl, fun x hx => ?_, fun x hx => ?_, ?_, ?_, ?_⟩
  · cases s with
    | nan => simp [normalize_score]
    | inf b => simp [normalize_score]
    | val x =>
      simp only [normalize_score]
      split_ifs with h1 h2
      · norm_num
      · norm_num
      · push_neg at h1 h2
        constructor
        · apply div_nonneg <;> linarith
        · rw [div_le_one (by norm_num)]
          linarith
  · simp [normalize_score, hx]
  · have h1 : ¬ x < -1 := by linarith
    simp [normalize_score, h1, hx]
  · norm_num [normalize_score]
  · norm_num [normalize_score]
  · norm_num [normalize_score]

/-- Witness for C6 at concrete out-of-range inputs. -/
theorem c6_normalize_score_witness :
    normalize_score (-1) 1 (PyFloat.val (-7 / 2)) = 0
    ∧ normalize_score (-1) 1 (PyFloat.val (5 / 2)) = 1 :=
  ⟨(c6_normalize_score_range (PyFloat.val (-7 / 2))).2.2.2.1 (-7 / 2) (by norm_num),
   (c6_normalize_score_range (PyFloat.val (5 / 2))).2.2.2.2.1 (5 / 2) (by norm_num)⟩

/-- C8: `apply_filters` returns a subsequence of its input candidate list:
surviving (caseIndex, score) pairs keep their relative order and exact scores,
and no pair absent from the input appears in the output. -/
theorem c8_apply_filters_sublist (corpus : List Case) (expand : List String → List String)
    (f : Filters) (cands : List (Nat × ℚ)) :
    List.Sublist (apply_filters corpus expand f cands) cands := by
  unfold apply_filters
  split
  · exact List.Sublist.refl _
  · exact List.filter_sublist _

/-- C10: when a statute filter is active and no filter citation yields a
parsable statute number, no case matches it, so every candidate is excluded
(the filter is not ignored as unrecognised). -/
theorem c10_unparsable_statute_excludes_all (corpus : List Case)
    (expand : List String → List String) (f : Filters) (cands : List (Nat × ℚ))
    (hart : f.article ≠ [])
    (hparse : ∀ a ∈ f.article, (extractCit (normCit a)).st = none)
    (hcorp : corpus ≠ [])
    (hidx : ∀ p ∈ cands, p.1 < corpus.length) :
    apply_filters corpus expand f cands = [] := by
  have hfe : filtersEmpty f = false := by
    unfold filtersEmpty
    have ha : f.article.isEmpty = false := by
      cases h : f.article with
      | nil => exact absurd h hart
      | cons a t => rfl
    simp [ha]
  have hce : corpus.isEmpty = false := by
    cases h : corpus with
    | nil => exact absurd h hcorp
    | cons c t => rfl
  have hsf : ∀ provs : List String, statuteFound f.article provs = false := by
    intro provs
    rw [Bool.eq_false_iff]
    intro hm
    rcases (statuteFound_iff _ _).mp hm with ⟨a, ha, pr, hpr, hmm⟩
    rw [citMatch_st_none _ _ (hparse a ha)] at hmm
    cases hmm
  unfold apply_filters
  rw [hfe, hce]
  simp only [Bool.or_self, if_false]
  refine List.filter_eq_nil_iff.mpr ?_
  intro p hp
  have haF : f.article.isEmpty = false := by
    cases h : f.article with
    | nil => exact absurd h hart
    | cons a t => rfl
  simp only [casePasses, haF, Bool.if_false_right, Bool.if_false_left]
  simp [hsf]

/-- C1: the statute filter matches a (filter citation, stored citation) pair
exactly when the extracted statute numbers agree, any part number given in the
filter equals the stored part number, and any sub-point number given in the
filter equals the stored sub-point number (a filter omitting part or sub-point
imposes no constraint on them); a case passes when any filter citation matches
any stored citation; and the spec's three concrete examples behave as stated. -/
theorem c1_statute_match_spec :
    (∀ fs ps : String,
       citMatch (extractCit (normCit fs)) (extractCit (normCit ps)) = true ↔
         ((∃ n, (extractCit (normCit fs)).st = some n ∧ (extractCit (normCit ps)).st = some n)
          ∧ (∀ c, (extractCit (normCit fs)).ch = some c → (extractCit (normCit ps)).ch = some c)
          ∧ (∀ q, (extractCit (normCit fs)).p = some q → (extractCit (normCit ps)).p = some q)))
    ∧ (∀ arts provs : List String,
       statuteFound arts provs = true ↔
         ∃ a ∈ arts, ∃ pr ∈ provs,
           citMatch (extractCit (normCit a)) (extractCit (normCit pr)) = true)
    ∧ statuteFound ["ст. 5"] ["ч. 2 ст. 5"] = true
    ∧ statuteFound ["ч. 2 ст. 5"] ["ч. 2 ст. 5"] = true
    ∧ statuteFound ["ч. 2 ст. 5"] ["ч. 3 ст. 5"] = false
    ∧ statuteFound ["ст. 7"] ["ст. 5"] = false := by
  refine ⟨?_, statuteFound_iff, by decide, by decide, by decide, by decide⟩
  intro fs ps
  exact citMatch_iff _ _ (extractCit_shape (normCit fs)).1

/-- Witness for C1: the first example derived through the characterisation. -/
theorem c1_statute_match_witness : statuteFound ["ст. 5"] ["ч. 2 ст. 5"] = true :=
  (c1_statute_match_spec.2.1 ["ст. 5"] ["ч. 2 ст. 5"]).mpr
    ⟨"ст. 5", by decide, "ч. 2 ст. 5", by decide, by decide⟩

/-- Witness for C10: a one-case corpus, one candidate, and a statute filter
whose single citation has no parsable statute number. -/
theorem c10_unparsable_statute_witness :
    apply_filters [emptyCase] id { article := ["привет"] } [(0, 1)] = [] :=
  c10_unparsable_statute_excludes_all [emptyCase] id { article := ["привет"] } [(0, 1)]
    (by decide) (by decide) (by decide) (by decide)

/-- C2 counterexample: on the claim's exact raw values — plain "/" separators,
the duplicate "A" counted per occurrence — the builder yields counts A=3,
A/B=1, A/B/C=1, not the claimed 4/2/1: the direct-hit lookup key is built as
"A / B" (with spaces) and misses the stored key "A/B", so mid-level direct
hits are dropped. -/
theorem c2_industry_hierarchy_counterexample :
    build_industry_hierarchy ["A", "A", "A/B", "A/B/C"]
      = [⟨"A", 3, [⟨"B", 1, [⟨"C", 1⟩]⟩]⟩]
    ∧ (3 : Nat) ≠ 4 ∧ (1 : Nat) ≠ 2 :=
  ⟨by decide, by decide, by decide⟩

/-- C2 (amended): with raw values in the canonical " / "-separated form the
builder aggregates bottom-up with direct hits rolled into every ancestor:
on ["A", "A", "A / B", "A / B / C"] node A counts 4, node A / B counts 2, and
the leaf A / B / C counts 1. -/
theorem c2_industry_hierarchy_amended :
    build_industry_hierarchy ["A", "A", "A / B", "A / B / C"]
      = [⟨"A", 4, [⟨"B", 2, [⟨"C", 1⟩]⟩]⟩] := by
  decide

/-- C7 counterexample: a failing embedding call does change state that affects
the scoring mode of subsequent requests — the global `use_gemini` flag is
cleared, and a later request even with a healthy embedding service is forced
onto the zero-vector (lexical-only) path. -/
theorem c7_failure_flag_counterexample :
    (searchEmbedStep true 3 "запрос" (EmbedOutcome.failed "quota")).2 ≠ true
    ∧ searchEmbedStep false 3 "запрос" (EmbedOutcome.ok [1, 2, 3]) = (zerosQ 3, false) :=
  ⟨by decide, by decide⟩

/-- C7 (amended): a failed embedding call is caught inside `get_embedding`
(`none` — no exception escapes to the caller), the request substitutes the
explicit zero vector and degrades to lexical-only ranking (`semantic_search`
returns no results for the zero vector) — but the global `use_gemini` flag is
cleared, so all subsequent requests also run on the zero-vector lexical-only
path rather than only the failing request. -/
theorem c7_failure_degrade_amended (dim : Nat) (t m : String) (tbl : Option (List (List ℚ)))
    (qNorm : ℚ) (k : Nat) (out : EmbedOutcome)
    (ht : (pyStripL t.data).isEmpty = false) :
    get_embedding t dim (EmbedOutcome.failed m) = none
    ∧ searchEmbedStep true dim t (EmbedOutcome.failed m) = (zerosQ dim, false)
    ∧ semantic_search tbl (zerosQ dim) qNorm k = []
    ∧ searchEmbedStep false dim t out = (zerosQ dim, false) := by
  have hge : get_embedding t dim (EmbedOutcome.failed m) = none := by
    simp [get_embedding, ht]
  refine ⟨hge, by simp [searchEmbedStep, hge], ?_, rfl⟩
  cases tbl with
  | none => rfl
  | some es => simp [semantic_search, isZeroVec_zerosQ dim]

/-- Witness for C7 (amended) at a concrete request. -/
theorem c7_failure_degrade_witness :
    get_embedding "тест" 4 (EmbedOutcome.failed "quota") = none
    ∧ searchEmbedStep true 4 "тест" (EmbedOutcome.failed "quota") = (zerosQ 4, false)
    ∧ semantic_search (some [[1, 0, 0, 0]]) (zerosQ 4) 0 100 = []
    ∧ searchEmbedStep false 4 "тест" (EmbedOutcome.ok [1, 1, 1, 1]) = (zerosQ 4, false) :=
  c7_failure_degrade_amended 4 "тест" "quota" (some [[1, 0, 0, 0]]) 0 100
    (EmbedOutcome.ok [1, 1, 1, 1]) (by decide)

/-- C3 counterexample: two lexically tied cases.  Fusion outputs index 5
before index 2 at equal fused scores — the stable sort keeps dict insertion
order — so the claimed ascending-case-index tie-break does not hold. -/
theorem c3_fuse_counterexample :
    fuse [] [(5, 1), (2, 1)] = [(5, 3 / 10), (2, 3 / 10)]
    ∧ fuse [] [(5, 1), (2, 1)] ≠ [(2, 3 / 10), (5, 3 / 10)] :=
  ⟨by with_unfolding_all decide, by with_unfolding_all decide⟩

/-- C3 (amended): for duplicate-free inputs every case index carries the fused
score 0.7·semantic + 0.3·lexical with a missing side contributing 0; the
output is sorted descending by fused score with ties kept in dict insertion
order (semantic results first, then new lexical indices — a stable sort), and
is truncated to at most `SEARCH_TOP_CANDIDATES` = 100 entries drawn from the
fusion dict. -/
theorem c3_fuse_amended (sem lex : List (Nat × ℚ))
    (hs : (sem.map Prod.fst).Nodup) (hl : (lex.map Prod.fst).Nodup) :
    (∀ idx : Nat, idx ∈ sem.map Prod.fst ∨ idx ∈ lex.map Prod.fst →
       dictGetD (fuseDict sem lex) idx 0
         = (if idx ∈ sem.map Prod.fst then dictGetD sem idx 0 * (7 / 10) else 0)
           + (if idx ∈ lex.map Prod.fst then dictGetD lex idx 0 * (3 / 10) else 0))
    ∧ (fuse sem lex).Pairwise (fun a b => b.2 ≤ a.2)
    ∧ (fuse sem lex).length ≤ SEARCH_TOP_CANDIDATES
    ∧ (∀ p ∈ fuse sem lex, p ∈ fuseDict sem lex)
    ∧ (∀ a b : Nat × ℚ, a.2 = b.2 → List.Sublist [a, b] (fuseDict sem lex) →
         List.Sublist [a, b] (sortDescBy Prod.snd (fuseDict sem lex))) := by
  refine ⟨?_, ?_, ?_, ?_, ?_⟩
  · intro idx hmem
    unfold fuseDict semContrib
    rw [fuseFold_value _ _ _ _ hl, fuseFold_value _ _ _ _ hs]
    simp [dictGetD]
  · exact (sortDescBy_pairwise Prod.snd (fuseDict sem lex)).take
  · exact List.length_take_le _ _
  · intro p hp
    exact (sortDescBy_perm Prod.snd (fuseDict sem lex)).mem_iff.mp
      ((List.take_sublist _ _).subset hp)
  · intro a b hab hsub
    exact sortDescBy_stable Prod.snd a b hab _ hsub

/-- Witness for C3 (amended): fused value of a case present on both sides. -/
theorem c3_fuse_witness :
    dictGetD (fuseDict [(1, 1 / 2)] [(1, 2)]) 1 0
      = (if (1 : Nat) ∈ ([(1, 1 / 2)] : List (Nat × ℚ)).map Prod.fst
         then dictGetD ([(1, 1 / 2)] : List (Nat × ℚ)) 1 0 * (7 / 10) else 0)
        + (if (1 : Nat) ∈ ([(1, 2)] : List (Nat × ℚ)).map Prod.fst
           then dictGetD ([(1, 2)] : List (Nat × ℚ)) 1 0 * (3 / 10) else 0) :=
  (c3_fuse_amended [(1, 1 / 2)] [(1, 2)] (by decide) (by decide)).1 1 (Or.inl (by decide))

/-- C4 counterexample: a query occurring in two searchable fields earns the
10-point full-query bonus in each of them (plus the token point per field):
the code scores the case 22 where the claim's formula — the bonus paid at most
once, for presence in ANY field — gives 12. -/
theorem c4_keyword_counterexample :
    keyword_search [{ violation_summary := some "abcd", ad_description := some "abcd" }] "abcd" 200
      = [(0, 22)]
    ∧ keywordScoreClaimed "abcd" { violation_summary := some "abcd", ad_description := some "abcd" }
        = 12
    ∧ (22 : ℚ) ≠ 12 :=
  ⟨by with_unfolding_all decide, by with_unfolding_all decide, by with_unfolding_all decide⟩

/-- C4 (amended): every pair returned by the lexical matcher carries the score
of its case under the per-field formula — 10 per field containing the full
lowercased query plus 1 per distinct query token longer than 3 characters per
field containing it — and that score is nonzero; a case whose score is 0 never
appears in the output. -/
theorem c4_keyword_search_amended (corpus : List Case) (query : String) (k : Nat) :
    (∀ p ∈ keyword_search corpus query k,
        p.1 < corpus.length
        ∧ p.2 = keywordScoreAmended query (corpus.getD p.1 emptyCase)
        ∧ p.2 ≠ 0)
    ∧ (∀ i : Nat, i < corpus.length →
        keywordScoreAmended query (corpus.getD i emptyCase) = 0 →
        ∀ s : ℚ, (i, s) ∉ keyword_search corpus query k) := by
  have hmain : ∀ p ∈ keyword_search corpus query k,
      p.1 < corpus.length
      ∧ p.2 = keywordScoreAmended query (corpus.getD p.1 emptyCase)
      ∧ p.2 ≠ 0 := by
    intro p hp
    unfold keyword_search at hp
    by_cases hc : corpus.isEmpty
    · rw [if_pos hc] at hp
      cases hp
    · rw [if_neg hc] at hp
      have hp2 :
          p ∈ sortDescBy Prod.snd
            (scoredList (pyLowerL query.data) (dedupFirst (wordRuns (pyLowerL query.data))) 0 corpus) :=
        (List.take_sublist _ _).subset hp
      have hp3 :
          p ∈ scoredList (pyLowerL query.data) (dedupFirst (wordRuns (pyLowerL query.data))) 0 corpus :=
        (sortDescBy_perm _ _).mem_iff.mp hp2
      rcases scoredList_mem _ _ corpus 0 p hp3 with ⟨j, hj, h1, h2, h3⟩
      have hj2 : p.1 = j := by omega
      refine ⟨by omega, ?_, ne_of_gt h3⟩
      rw [keywordScoreAmended_eq, hj2]
      exact h2
  refine ⟨hmain, ?_⟩
  intro i hi hz s hmem
  rcases hmain (i, s) hmem with ⟨h1, h2, h3⟩
  simp only at h2 h3
  rw [hz] at h2
  exact h3 h2

/-- Witness for C4 (amended): the single scoring case of a one-case corpus. -/
theorem c4_keyword_search_witness :
    ((0 : Nat), (11 : ℚ)).1 < [({ violation_summary := some "тест" } : Case)].length
    ∧ ((0 : Nat), (11 : ℚ)).2
        = keywordScoreAmended "тест"
            ([({ violation_summary := some "тест" } : Case)].getD ((0 : Nat), (11 : ℚ)).1 emptyCase)
    ∧ ((0 : Nat), (11 : ℚ)).2 ≠ 0 :=
  (c4_keyword_search_amended [{ violation_summary := some "тест" }] "тест" 200).1 (0, 11)
    (by with_unfolding_all decide)

/-- C5: with a zero (or absent, substituted-by-zero) query vector and a
lexical signal (`use_keyword_scores = true`), the reranker scores each
candidate as its score divided by the candidate set's maximum score —
the top lexical hit scoring exactly 1 — and reports the single "keyword"
component; without a lexical signal every candidate scores 0 with an empty
field-score map and the original fused order is preserved. -/
theorem c5_rerank_degenerate (corpus : List Case) (tblV tblA : Option (List FieldEntry))
    (q : List ℚ) (cands : List (Nat × ℚ))
    (hcorp : corpus.isEmpty = false) (hz : isZeroVec q = true) :
    (cands ≠ [] → listMaxQ (cands.map Prod.snd) ≠ 0 →
       rerank_with_field_embeddings corpus tblV tblA q cands true
           = sortDescBy (fun r => r.score)
               (cands.map (fun p => ⟨p.1, p.2 / listMaxQ (cands.map Prod.snd),
                  [("keyword", p.2 / listMaxQ (cands.map Prod.snd))]⟩))
         ∧ ∃ r ∈ rerank_with_field_embeddings corpus tblV tblA q cands true, r.score = 1)
    ∧ rerank_with_field_embeddings corpus tblV tblA q cands false
        = cands.map (fun p => ⟨p.1, 0, []⟩) := by
  constructor
  · intro hne hm
    have hcne : cands.isEmpty = false := by
      cases cands with
      | nil => exact absurd rfl hne
      | cons a t => rfl
    have heq : rerank_with_field_embeddings corpus tblV tblA q cands true
        = sortDescBy (fun r => r.score)
            (cands.map (fun p => ⟨p.1, p.2 / listMaxQ (cands.map Prod.snd),
               [("keyword", p.2 / listMaxQ (cands.map Prod.snd))]⟩)) := by
      unfold rerank_with_field_embeddings
      rw [hcorp, hz, hcne]
      simp only [Bool.false_eq_true, if_false, Bool.true_and, if_true, if_neg hm]
    refine ⟨heq, ?_⟩
    have hmm : listMaxQ (cands.map Prod.snd) ∈ cands.map Prod.snd :=
      listMaxQ_mem _ (by simpa using hne)
    rcases List.mem_map.mp hmm with ⟨p, hpmem, hpeq⟩
    refine ⟨⟨p.1, p.2 / listMaxQ (cands.map Prod.snd),
      [("keyword", p.2 / listMaxQ (cands.map Prod.snd))]⟩, ?_, ?_⟩
    · rw [heq]
      exact (sortDescBy_perm _ _).mem_iff.mpr (List.mem_map.mpr ⟨p, hpmem, rfl⟩)
    · simp only
      rw [hpeq]
      exact div_self hm
  · have heq2 : rerank_with_field_embeddings corpus tblV tblA q cands false
        = sortDescBy (fun r => r.score) (cands.map (fun p => ⟨p.1, 0, []⟩)) := by
      unfold rerank_with_field_embeddings
      rw [hcorp, hz]
      simp only [Bool.false_eq_true, if_false, Bool.and_false, if_true]
    rw [heq2]
    refine sortDescBy_const _ 0 _ ?_
    intro x hx
    rcases List.mem_map.mp hx with ⟨p, hpmem, hpeq⟩
    rw [← hpeq]

/-- Witness for C5: two candidates, zero query vector; the keyword branch
yields a top score of exactly 1. -/
theorem c5_rerank_degenerate_witness :
    ∃ r ∈ rerank_with_field_embeddings [emptyCase] none none [0] [(3, 3 / 10), (1, 6 / 10)] true,
      r.score = 1 :=
  ((c5_rerank_degenerate [emptyCase] none none [0] [(3, 3 / 10), (1, 6 / 10)]
      (by with_unfolding_all decide) (by with_unfolding_all decide)).1
    (by with_unfolding_all decide) (by with_unfolding_all decide)).2

/-- C9: the search endpoint fuses at most the 50 highest-scoring lexical
candidates (the lexical matcher is invoked with cap 50) with up to
`SEARCH_TOP_CANDIDATES` = 100 semantic candidates, and a case outside the
lexical top 50 — even with a nonzero lexical score — receives no lexical
contribution: its fused dict value is exactly its semantic-pass value. -/
theorem c9_fusion_caps (corpus : List Case) (tbl : Option (List (List ℚ))) (q : List ℚ)
    (qNorm : ℚ) (query : String) :
    (keyword_search corpus query 50).length ≤ 50
    ∧ (semantic_search tbl q qNorm SEARCH_TOP_CANDIDATES).length ≤ 100
    ∧ search_candidate_pool corpus tbl q qNorm query
        = fuse (semantic_search tbl q qNorm 100) (keyword_search corpus query 50)
    ∧ (∀ idx : Nat,
         keywordScoreOf query (corpus.getD idx emptyCase) ≠ 0 →
         idx ∉ (keyword_search corpus query 50).map Prod.fst →
         dictGetD (fuseDict (semantic_search tbl q qNorm SEARCH_TOP_CANDIDATES)
                     (keyword_search corpus query 50)) idx 0
           = dictGetD (semContrib (semantic_search tbl q qNorm SEARCH_TOP_CANDIDATES)) idx 0) := by
  refine ⟨?_, ?_, rfl, ?_⟩
  · unfold keyword_search
    split
    · simp
    · exact List.length_take_le _ _
  · unfold semantic_search
    cases tbl with
    | none => simp
    | some es =>
      by_cases hz : isZeroVec q = true
      · simp [hz]
      · simp only [hz, if_false]
        exact List.length_take_le _ _
  · intro idx hnz hnotin
    unfold fuseDict
    exact fuseFold_notin _ _ _ _ hnotin

/-- Witness for C9: a 51-case corpus in which every case has the same nonzero
lexical score; case 50 falls outside the lexical top 50 and gets no lexical
contribution in the fusion dict. -/
theorem c9_fusion_caps_witness :
    dictGetD (fuseDict (semantic_search none [1] 1 SEARCH_TOP_CANDIDATES)
        (keyword_search (List.replicate 51 ({ violation_summary := some "тест" } : Case)) "тест" 50))
        50 0
      = dictGetD (semContrib (semantic_search none [1] 1 SEARCH_TOP_CANDIDATES)) 50 0 :=
  (c9_fusion_caps (List.replicate 51 ({ violation_summary := some "тест" } : Case)) none [1] 1
      "тест").2.2.2 50 (by with_unfolding_all decide) (by with_unfolding_all decide)
